import Mathlib

/-!
# Verification of the seed-fe event-channel core

A shallow embedding of the `@seed-fe/event-channel` package:

* `protected-events.ts` — the protected-event registry (a `Map` keyed by
  freshly allocated `Symbol`s, modelled by natural-number tokens drawn from a
  monotone counter, with the map's insertion-ordered entry list).
* `utils.ts` — `matchPattern` over `minimatch` glob semantics (the glob
  engine is an external dependency; it is modelled here for the `*`, `?` and
  brace-alternation constructs, full-anchored, as documented).
* `core.ts` — the channel facade whose `off` refuses to touch protected keys.
* `group-namespace.ts` — batch removal operations (`offGroup`, `offNamespace`,
  `offOnceGroup`, `offOnceNamespace`).
* `strategies.ts` — `emitGroupWithStrategy` with the `parallel` / `waterfall` /
  `series` fan-out policies.

Handler functions are interpreted through an explicit environment
`interp : Nat → List Val → Val` mapping a listener's identity to its
behaviour; promise timing is modelled by a completion schedule
`delays : Nat → Nat`, with `Promise.all` writing each settled result into the
slot of its originating promise (so the aggregate preserves creation order,
whatever the completion order).
-/

/-- Metadata of a protected event (`type.ts` `ProtectedEventMeta`): the open
mapping is modelled by its three recognised fields; `nspace` stands for the
source's `namespace` field (a Lean keyword). -/
structure ProtectedEventMeta where
  description : Option String := none
  group : Option String := none
  nspace : Option String := none
deriving DecidableEq, Repr

/-- One registry record, as produced by `listProtectedEvents`
(`protected-events.ts` entry `(symbol, \x7bname, meta\x7d)`). -/
structure PEvent where
  symbol : Nat
  name : String
  meta : ProtectedEventMeta
deriving DecidableEq, Repr

/-- The module-level `protectedEvents : Map<symbol, ...>` of
`protected-events.ts`, together with the fresh-symbol allocator: `events` is
the map's insertion-ordered entry list, `nextSym` the next unallocated
symbol token. -/
structure Registry where
  nextSym : Nat
  events : List PEvent
deriving DecidableEq, Repr

/-- `registerProtectedEvent(name, meta)`: allocate a fresh symbol, insert the
record, return the symbol (with the updated registry state). -/
def registerProtectedEvent (reg : Registry) (name : String) (meta : ProtectedEventMeta) :
    Nat × Registry :=
  (reg.nextSym, ⟨reg.nextSym + 1, reg.events ++ [⟨reg.nextSym, name, meta⟩]⟩)

/-- `unregisterProtectedEvent(sym)`: `Map.delete` — drop the record for `sym`
and report whether one was present. -/
def unregisterProtectedEvent (reg : Registry) (sym : Nat) : Bool × Registry :=
  (reg.events.any (fun e => e.symbol == sym),
   ⟨reg.nextSym, reg.events.filter (fun e => e.symbol != sym)⟩)

/-- `getProtectedEventMeta(sym)`: `Map.get(sym)?.meta`. -/
def getProtectedEventMeta (reg : Registry) (sym : Nat) : Option ProtectedEventMeta :=
  (reg.events.find? (fun e => e.symbol == sym)).map (fun e => e.meta)

/-- `isProtectedEvent(sym)`: `Map.has(sym)`. -/
def isProtectedEvent (reg : Registry) (sym : Nat) : Bool :=
  reg.events.any (fun e => e.symbol == sym)

/-- `listProtectedEvents()` — note: the implementation takes no filter
parameter and always returns every record. -/
def listProtectedEvents (reg : Registry) : List PEvent := reg.events

/-- Reachable registry states: every stored symbol token was allocated by the
counter.  This is the invariant the `Symbol()` allocator provides for free in
the source. -/
def RegistryWF (reg : Registry) : Prop := ∀ e ∈ reg.events, e.symbol < reg.nextSym

/-- The exact-match filter argument the tests pass to `listProtectedEvents`. -/
structure ListFilter where
  group : Option String := none
  nspace : Option String := none
deriving DecidableEq, Repr

/-- Modelled from the spec: the `listProtectedEvents` implementation shipped
under `src` takes no filter parameter, but the spec (4.2 `list`) and the
repository's own tests describe a filtered listing — returns all records when
no filter field is given; when `group` and/or `namespace` are given, keeps
exactly the records whose corresponding field equals the filter value (AND of
both when both are given). -/
def listProtectedEventsSpec (reg : Registry) (filter : ListFilter) : List PEvent :=
  reg.events.filter (fun e =>
    (match filter.group with
     | none => true
     | some g => e.meta.group == some g) &&
    (match filter.nspace with
     | none => true
     | some ns => e.meta.nspace == some ns))

/-! ## Pattern matcher (`utils.ts` `matchPattern` over minimatch) -/

/-- Anchored glob matching for `*` (any-length) and `?` (single char),
structurally fuelled (each step shrinks `pattern-length + value-length`, so
`globMatch` always supplies enough fuel). -/
def globMatchAux : Nat → List Char → List Char → Bool
  | 0, _, _ => false
  | _ + 1, [], [] => true
  | _ + 1, [], _ :: _ => false
  | fuel + 1, p :: ps, [] => p == '*' && globMatchAux fuel ps []
  | fuel + 1, p :: ps, c :: cs =>
    if p == '*' then globMatchAux fuel ps (c :: cs) || globMatchAux fuel (p :: ps) cs
    else if p == '?' then globMatchAux fuel ps cs
    else p == c && globMatchAux fuel ps cs

/-- Anchored glob match of a value against a pattern. -/
def globMatch (ps : List Char) (vs : List Char) : Bool :=
  globMatchAux (ps.length + vs.length + 1) ps vs

/-- Split a brace body on commas (`a,b,c` → `a`, `b`, `c`). -/
def splitCommaTop (cs : List Char) : List (List Char) :=
  cs.foldr
    (fun c acc =>
      if c == ',' then [] :: acc
      else
        match acc with
        | [] => [[c]]
        | g :: gs => (c :: g) :: gs)
    [[]]

/-- Brace expansion: rewrite a pattern containing brace alternations into the
list of brace-free alternatives (an unmatched brace is kept literally).
Fuelled by the pattern length, which bounds the recursion depth. -/
def braceExpandAux : Nat → List Char → List (List Char)
  | 0, cs => [cs]
  | fuel + 1, cs =>
    let pre := cs.takeWhile (fun c => c != '{')
    match cs.dropWhile (fun c => c != '{') with
    | [] => [cs]
    | _ :: rest =>
      let mid := rest.takeWhile (fun c => c != '}')
      match rest.dropWhile (fun c => c != '}') with
      | [] => [cs]
      | _ :: post =>
        (splitCommaTop mid).flatMap
          (fun alt => (braceExpandAux fuel post).map (fun suf => pre ++ alt ++ suf))

/-- Brace expansion of a whole pattern. -/
def braceExpand (cs : List Char) : List (List Char) :=
  braceExpandAux cs.length cs

/-- `matchPattern(value, pattern)` from `utils.ts`: `if (!value) return false`
(so both an absent and an empty-string value never match), the `"*"` fast
path, then the glob engine (modelled: brace alternatives, `*`, `?`,
anchored). -/
def matchPattern (value : Option String) (pattern : String) : Bool :=
  match value with
  | none => false
  | some v =>
    if v == "" then false
    else if pattern == "*" then true
    else (braceExpand pattern.data).any (fun p => globMatch p v.data)

/-! ## Emitter and channel facade (`core.ts`) -/

/-- An EventEmitter2 event key: the facade distinguishes symbol keys (used by
protected events) from string keys. -/
inductive EventName where
  | sym (s : Nat)
  | str (s : String)
deriving DecidableEq, Repr

/-- A listener as stored by the emitter: its function identity and the
per-listener once-marker (`_once`) EventEmitter2 places on single-fire
registrations. -/
structure Listener where
  id : Nat
  once : Bool
deriving DecidableEq, Repr

/-- The emitter's listener table: event key → ordered listener list. -/
def Emitter : Type := EventName → List Listener

/-- `emitter.listeners(key)`. -/
def getListeners (em : Emitter) (k : EventName) : List Listener := em k

/-- `emitter.on(key, l)`: append `l` to the key's listener list. -/
def emitterOn (em : Emitter) (k : EventName) (l : Listener) : Emitter :=
  fun k2 => if k2 = k then em k ++ [l] else em k2

/-- `emitter.off(key, l)` / `removeListener`: remove one attached instance of
`l` from the key's listener list. -/
def emitterOff (em : Emitter) (k : EventName) (l : Listener) : Emitter :=
  fun k2 => if k2 = k then (em k).erase l else em k2

/-- `emitter.removeAllListeners(key)`. -/
def emitterRemoveAll (em : Emitter) (k : EventName) : Emitter :=
  fun k2 => if k2 = k then [] else em k2

/-- The facade's `off` from `core.ts` (the only intercepted operation): a
symbol key that is currently protected is left alone; otherwise remove the
given listener if one is supplied, else remove all listeners for the key. -/
def channelOff (reg : Registry) (em : Emitter) (k : EventName) (l? : Option Listener) :
    Emitter :=
  if (match k with
      | EventName.sym s => isProtectedEvent reg s
      | EventName.str _ => false) then
    em
  else
    match l? with
    | some l => emitterOff em k l
    | none => emitterRemoveAll em k

/-! ## Batch removal (`group-namespace.ts`) -/

/-- `offGroup(pattern, emitter)`: for every registry record whose `group`
matches, remove all listeners on its symbol — directly on the emitter,
bypassing the facade's protection check. -/
def offGroup (reg : Registry) (pattern : String) (em : Emitter) : Emitter :=
  reg.events.foldl
    (fun em e =>
      if matchPattern e.meta.group pattern then emitterRemoveAll em (EventName.sym e.symbol)
      else em)
    em

/-- `offNamespace(pattern, emitter)`: the same over the `namespace` field. -/
def offNamespace (reg : Registry) (pattern : String) (em : Emitter) : Emitter :=
  reg.events.foldl
    (fun em e =>
      if matchPattern e.meta.nspace pattern then emitterRemoveAll em (EventName.sym e.symbol)
      else em)
    em

/-- The per-key body of `offOnceGroup` / `offOnceNamespace`: read the key's
listeners, keep the ones without the once-marker, remove everything, then
re-attach the kept ones in their original order. -/
def removeOnceListeners (em : Emitter) (s : Nat) : Emitter :=
  let listeners := getListeners em (EventName.sym s)
  let regular := listeners.filter (fun l => !l.once)
  let em1 := emitterRemoveAll em (EventName.sym s)
  regular.foldl (fun em l => emitterOn em (EventName.sym s) l) em1

/-- `offOnceGroup(pattern, emitter)`. -/
def offOnceGroup (reg : Registry) (pattern : String) (em : Emitter) : Emitter :=
  reg.events.foldl
    (fun em e =>
      if matchPattern e.meta.group pattern then removeOnceListeners em e.symbol
      else em)
    em

/-- `offOnceNamespace(pattern, emitter)`. -/
def offOnceNamespace (reg : Registry) (pattern : String) (em : Emitter) : Emitter :=
  reg.events.foldl
    (fun em e =>
      if matchPattern e.meta.nspace pattern then removeOnceListeners em e.symbol
      else em)
    em

/-! ## Dispatch strategies (`strategies.ts`)

`emitGroupWithStrategy` is embedded with the emitter passed explicitly (the
source pops a trailing emitter argument off `args` by capability-shape
sniffing; the remaining positional arguments are `args` here), handler behaviour
given by `interp`, and promise completion times by `delays`. -/

/-- A handler-call result value (`unknown` in the source): `undef` is
JavaScript's `undefined`, `arr` an array such as the one `emitAsync` resolves
with. -/
inductive Val where
  | undef : Val
  | str : String → Val
  | arr : List Val → Val
deriving Repr

/-- One entry of the strategy engine's observable behaviour: a handler
emission being started, or its promise being awaited/settled. -/
inductive TraceEv where
  | initiate (ev : Nat)
  | settle (ev : Nat)
deriving DecidableEq, Repr

/-- What a strategy run produces: the emission trace and the resolved result
sequence. -/
structure StrategyOut where
  trace : List TraceEv
  results : List Val
deriving Repr

/-- The listener-result array `emitAsync(ev, ...args)` resolves with: every
attached listener applied to the argument list, in listener order. -/
def emitAsyncVals (em : Emitter) (interp : Nat → List Val → Val) (ev : Nat)
    (args : List Val) : List Val :=
  (getListeners em (EventName.sym ev)).map (fun h => interp h.id args)

/-- The `matchedEvents` collection of `emitGroupWithStrategy`: symbols of the
registry records whose `group` matches the pattern, in registry listing
(insertion) order. -/
def matchedEvents (reg : Registry) (pattern : String) : List Nat :=
  (reg.events.filter (fun e => matchPattern e.meta.group pattern)).map (fun e => e.symbol)

/-- Pair every element with its position (creation index of the promise in
`Promise.all`'s input array). -/
def withIdx {α : Type} : Nat → List α → List (Nat × α)
  | _, [] => []
  | n, a :: l => (n, a) :: withIdx (n + 1) l

/-- A pending `emitAsync` promise: its slot in `Promise.all`'s input array,
its event, its completion time, and the value it resolves with. -/
structure Pending where
  idx : Nat
  ev : Nat
  delay : Nat
  vals : List Val
deriving Repr

/-- Insert a pending promise into a completion-ordered list (earlier-created
promises settle first among equal delays). -/
def insertPending (p : Pending) : List Pending → List Pending
  | [] => [p]
  | q :: qs => if p.delay < q.delay then p :: q :: qs else q :: insertPending p qs

/-- Completion order of a batch of pending promises. -/
def sortByDelay : List Pending → List Pending
  | [] => []
  | p :: ps => insertPending p (sortByDelay ps)

/-- `Promise.all`: as each promise settles (in completion order) its value is
written into the slot it was created with; the aggregate resolves with the
slot array. -/
def promiseAllSettle (ps : List Pending) : List Val :=
  (sortByDelay ps).foldl
    (fun slots p => slots.set p.idx (Val.arr p.vals))
    (List.replicate ps.length Val.undef)

/-- The `waterfall` loop of `strategies.ts`: thread `result` through the
matched keys; a key with no listeners is skipped; otherwise call the first
listener with the argument list whose first position is replaced by the
running result, and push the awaited value. -/
def waterfallRun (em : Emitter) (interp : Nat → List Val → Val) :
    List Nat → Val → List Val → List TraceEv × List Val
  | [], _, _ => ([], [])
  | ev :: rest, result, args =>
    match getListeners em (EventName.sym ev) with
    | [] => waterfallRun em interp rest result args
    | h :: _ =>
      let r := interp h.id (result :: args.tail)
      let out := waterfallRun em interp rest r args
      (TraceEv.initiate ev :: TraceEv.settle ev :: out.1, r :: out.2)

/-- The `series` loop of `strategies.ts`: `emitAsync` each matched key with
the original arguments, awaiting each before the next. -/
def seriesRun (em : Emitter) (interp : Nat → List Val → Val) :
    List Nat → List Val → List TraceEv × List Val
  | [], _ => ([], [])
  | ev :: rest, args =>
    let r := Val.arr (emitAsyncVals em interp ev args)
    let out := seriesRun em interp rest args
    (TraceEv.initiate ev :: TraceEv.settle ev :: out.1, r :: out.2)

/-- `emitGroupWithStrategy(pattern, strategy, ...args)` from `strategies.ts`:
collect the group-matched events in registry order, then dispatch under the
named strategy; any other strategy value falls through to `return []`. -/
def emitGroupWithStrategy (reg : Registry) (groupPattern : String) (strategy : String)
    (args : List Val) (em : Emitter) (interp : Nat → List Val → Val)
    (delays : Nat → Nat) : StrategyOut :=
  let matched := matchedEvents reg groupPattern
  if strategy == "parallel" then
    let pendings := (withIdx 0 matched).map
      (fun q => Pending.mk q.1 q.2 (delays q.2) (emitAsyncVals em interp q.2 args))
    { trace := matched.map TraceEv.initiate ++
        (sortByDelay pendings).map (fun p => TraceEv.settle p.ev),
      results := promiseAllSettle pendings }
  else if strategy == "waterfall" then
    let out := waterfallRun em interp matched (args.headD Val.undef) args
    { trace := out.1, results := out.2 }
  else if strategy == "series" then
    let out := seriesRun em interp matched args
    { trace := out.1, results := out.2 }
  else
    { trace := [], results := [] }

/-! ## Concrete instances used by witnesses and counterexamples -/

/-- Empty registry (the module state at startup). -/
def regEmpty : Registry := ⟨0, []⟩

/-- Registry with two records in distinct groups, as in the filtered-listing
test. -/
def regC3 : Registry :=
  ⟨2, [⟨0, "A", { group := some "g1" }⟩, ⟨1, "C", { group := some "g2" }⟩]⟩

/-- Registry with two records in group `g`, in registration order. -/
def regW : Registry :=
  ⟨2, [⟨0, "A", { group := some "g" }⟩, ⟨1, "B", { group := some "g" }⟩]⟩

/-- Emitter with one regular listener on each of the two `regW` symbols. -/
def emW : Emitter := fun k =>
  if k = EventName.sym 0 then [⟨10, false⟩]
  else if k = EventName.sym 1 then [⟨11, false⟩]
  else []

/-- Handler environment where listener 10 appends `s1` and listener 11
appends `s2` to a string argument. -/
def interpW (s1 s2 : String) : Nat → List Val → Val := fun i as =>
  match as.headD Val.undef with
  | Val.str s => Val.str (s ++ (if i == 10 then s1 else s2))
  | v => v

/-! ## Registry helper lemmas -/

/-- After `unregisterProtectedEvent`, the key is no longer protected. -/
theorem unregister_not_protected (reg : Registry) (k : Nat) :
    isProtectedEvent (unregisterProtectedEvent reg k).2 k = false := by
  simp only [isProtectedEvent, unregisterProtectedEvent]
  rw [List.any_eq_false]
  intro e he
  have := List.mem_filter.mp he
  simpa using this.2

/-- After `unregisterProtectedEvent`, the key's metadata is gone. -/
theorem unregister_getMeta_none (reg : Registry) (k : Nat) :
    getProtectedEventMeta (unregisterProtectedEvent reg k).2 k = none := by
  simp only [getProtectedEventMeta, unregisterProtectedEvent]
  have hnone : (reg.events.filter (fun e => e.symbol != k)).find?
      (fun e => e.symbol == k) = none := by
    rw [List.find?_eq_none]
    intro e he
    have := List.mem_filter.mp he
    simpa using this.2
  rw [hnone]
  rfl

/-- Immediately after `registerProtectedEvent`, the returned key is
protected. -/
theorem register_protected (reg : Registry) (n : String) (m : ProtectedEventMeta) :
    isProtectedEvent (registerProtectedEvent reg n m).2 (registerProtectedEvent reg n m).1
      = true := by
  simp [isProtectedEvent, registerProtectedEvent]

/-- `C5`: `unregisterProtectedEvent(k)` returns `true` exactly when `k` is
registered at the time of the call; a second call on the same key returns
`false`; immediately after unregistering, `isProtectedEvent k` is `false` and
`getProtectedEventMeta k` is absent; immediately after registering,
`isProtectedEvent` of the fresh key is `true`. -/
theorem unregister_exact_semantics (reg : Registry) (k : Nat) :
    (unregisterProtectedEvent reg k).1 = isProtectedEvent reg k ∧
    (unregisterProtectedEvent (unregisterProtectedEvent reg k).2 k).1 = false ∧
    isProtectedEvent (unregisterProtectedEvent reg k).2 k = false ∧
    getProtectedEventMeta (unregisterProtectedEvent reg k).2 k = none ∧
    ∀ (n : String) (m : ProtectedEventMeta),
      isProtectedEvent (registerProtectedEvent reg n m).2 (registerProtectedEvent reg n m).1
        = true :=
  ⟨rfl, unregister_not_protected _ k, unregister_not_protected reg k,
   unregister_getMeta_none reg k, fun n m => register_protected reg n m⟩

/-- `C4`: `registerProtectedEvent` always succeeds with a key distinct from
the key of every earlier registration — including a registration with the
same name — and the two records resolve to their own metadata
independently. -/
theorem register_allocates_fresh_keys (reg : Registry) (hwf : RegistryWF reg)
    (n1 n2 : String) (m1 m2 : ProtectedEventMeta) :
    (registerProtectedEvent reg n1 m1).1
        ≠ (registerProtectedEvent (registerProtectedEvent reg n1 m1).2 n2 m2).1 ∧
    (∀ e ∈ reg.events,
      (registerProtectedEvent reg n1 m1).1 ≠ e.symbol ∧
      (registerProtectedEvent (registerProtectedEvent reg n1 m1).2 n2 m2).1 ≠ e.symbol) ∧
    getProtectedEventMeta (registerProtectedEvent (registerProtectedEvent reg n1 m1).2 n2 m2).2
        (registerProtectedEvent reg n1 m1).1 = some m1 ∧
    getProtectedEventMeta (registerProtectedEvent (registerProtectedEvent reg n1 m1).2 n2 m2).2
        (registerProtectedEvent (registerProtectedEvent reg n1 m1).2 n2 m2).1 = some m2 ∧
    RegistryWF (registerProtectedEvent (registerProtectedEvent reg n1 m1).2 n2 m2).2 := by
  have hnone1 : reg.events.find? (fun e => e.symbol == reg.nextSym) = none := by
    rw [List.find?_eq_none]
    intro e he
    have := hwf e he
    simp only [beq_iff_eq]
    omega
  have hnone2 : reg.events.find? (fun e => e.symbol == reg.nextSym + 1) = none := by
    rw [List.find?_eq_none]
    intro e he
    have := hwf e he
    simp only [beq_iff_eq]
    omega
  simp only [registerProtectedEvent, getProtectedEventMeta]
  refine ⟨by omega, fun e he => ⟨?_, ?_⟩, ?_, ?_, ?_⟩
  · have := hwf e he
    omega
  · have := hwf e he
    omega
  · rw [List.append_assoc, List.find?_append, hnone1]
    simp
  · rw [List.append_assoc, List.find?_append, hnone2]
    simp
  · intro e he
    simp only [List.mem_append, List.mem_singleton] at he
    show e.symbol < reg.nextSym + 1 + 1
    rcases he with (h | h) | h
    · have := hwf e h
      omega
    · rw [h]
      dsimp only
      omega
    · rw [h]
      dsimp only
      omega

/-- Witness for `register_allocates_fresh_keys` at the empty registry. -/
theorem register_allocates_fresh_keys_witness :
    (registerProtectedEvent regEmpty "dup" {}).1
      ≠ (registerProtectedEvent (registerProtectedEvent regEmpty "dup" {}).2 "dup" {}).1 :=
  (register_allocates_fresh_keys regEmpty (by simp [RegistryWF, regEmpty]) "dup" "dup" {} {}).1

/-- `C3` evidence: the shipped `listProtectedEvents` takes no filter and
returns every record, so the call the tests make with `(group := "g1")`
returns the `g2` record as well, where the spec's filtered listing keeps
exactly the `g1` records. -/
theorem listProtectedEvents_ignores_filter :
    listProtectedEvents regC3
        = [⟨0, "A", { group := some "g1" }⟩, ⟨1, "C", { group := some "g2" }⟩] ∧
    listProtectedEventsSpec regC3 { group := some "g1" }
        = [⟨0, "A", { group := some "g1" }⟩] ∧
    listProtectedEvents regC3 ≠ listProtectedEventsSpec regC3 { group := some "g1" } := by
  decide

/-- `C9` counterexample: a record whose group is the empty string has a
present value, yet the `"*"` pattern does not match it (`!value` in the
source treats the empty string like an absent value). -/
theorem matchPattern_star_empty_string_counterexample :
    matchPattern (some "") "*" = false := by decide

/-- `C9` amended: an absent value never matches any pattern; a present
empty-string value also never matches (the code's falsy check); every other
present value matches `"*"`; and otherwise glob semantics with `*`, `?` and
brace alternation apply, anchored against the full value. -/
theorem matchPattern_amended_semantics :
    (∀ p : String, matchPattern none p = false) ∧
    (∀ p : String, matchPattern (some "") p = false) ∧
    (∀ v : String, v ≠ "" → matchPattern (some v) "*" = true) ∧
    (matchPattern (some "user") "user*" = true ∧
     matchPattern (some "user-admin") "user*" = true ∧
     matchPattern (some "order") "user*" = false ∧
     matchPattern (some "user-admin") "user-?dmin" = true ∧
     matchPattern (some "user-guest") "user-?dmin" = false ∧
     matchPattern (some "order-123") "order-\x7b123,abc\x7d" = true ∧
     matchPattern (some "order-abc") "order-\x7b123,abc\x7d" = true) := by
  refine ⟨fun p => rfl, fun p => rfl, fun v hv => ?_, by decide⟩
  simp only [matchPattern]
  rw [if_neg (by simpa using hv), if_pos (by decide)]

/-- Witness for `matchPattern_amended_semantics` at a nonempty value. -/
theorem matchPattern_amended_semantics_witness :
    ("user" : String) ≠ "" ∧ matchPattern (some "user") "*" = true :=
  ⟨by decide, matchPattern_amended_semantics.2.2.1 "user" (by decide)⟩

/-! ## Channel facade (`C1`) -/

/-- `C1`: the facade's `off` on a currently protected key is a silent no-op
returning the emitter unchanged (it is a total function, so no error can be
raised); on a non-protected key it delegates to native removal — removing
exactly one attached instance of the given handler when one is supplied,
removing all handlers for the key otherwise, and leaving every other key's
listeners untouched; and after `unregisterProtectedEvent` the identical call
does detach listeners. -/
theorem facade_off_protection (reg : Registry) (em : Emitter) (s : Nat)
    (l? : Option Listener) :
    (isProtectedEvent reg s = true → channelOff reg em (EventName.sym s) l? = em) ∧
    (isProtectedEvent reg s = false →
      (∀ l, channelOff reg em (EventName.sym s) (some l) = emitterOff em (EventName.sym s) l) ∧
      channelOff reg em (EventName.sym s) none = emitterRemoveAll em (EventName.sym s) ∧
      (∀ l, getListeners (channelOff reg em (EventName.sym s) (some l)) (EventName.sym s)
          = (getListeners em (EventName.sym s)).erase l) ∧
      getListeners (channelOff reg em (EventName.sym s) none) (EventName.sym s) = [] ∧
      (∀ k2, k2 ≠ EventName.sym s →
        getListeners (channelOff reg em (EventName.sym s) l?) k2 = getListeners em k2)) ∧
    isProtectedEvent (unregisterProtectedEvent reg s).2 s = false ∧
    getListeners (channelOff (unregisterProtectedEvent reg s).2 em (EventName.sym s) none)
        (EventName.sym s) = [] ∧
    (∀ l, getListeners
        (channelOff (unregisterProtectedEvent reg s).2 em (EventName.sym s) (some l))
        (EventName.sym s) = (getListeners em (EventName.sym s)).erase l) := by
  have hunreg := unregister_not_protected reg s
  refine ⟨fun h => ?_, fun h => ⟨fun l => ?_, ?_, fun l => ?_, ?_, fun k2 hk2 => ?_⟩,
          hunreg, ?_, fun l => ?_⟩
  · simp [channelOff, h]
  · simp [channelOff, h]
  · simp [channelOff, h]
  · simp [channelOff, h, emitterOff, getListeners]
  · simp [channelOff, h, emitterRemoveAll, getListeners]
  · cases l? with
    | none => simp [channelOff, h, emitterRemoveAll, getListeners, hk2]
    | some l => simp [channelOff, h, emitterOff, getListeners, hk2]
  · simp [channelOff, hunreg, emitterRemoveAll, getListeners]
  · simp [channelOff, hunreg, emitterOff, getListeners]

/-- Witness for `facade_off_protection` on a registry where key `0` is
protected: the facade's `off` leaves the emitter untouched. -/
theorem facade_off_protection_witness :
    isProtectedEvent regW 0 = true ∧ channelOff regW emW (EventName.sym 0) none = emW :=
  ⟨by decide, (facade_off_protection regW emW 0 none).1 (by decide)⟩

/-! ## Batch removal lemmas (`C6`, `C8`) -/

/-- A fold over the registry applying a single-key emitter transformation to
every selected record changes exactly the keys of selected records, by the
transformation's per-key action (idempotence makes repeated selection of the
same key harmless). -/
theorem foldl_batch_listeners (t : Emitter → Nat → Emitter)
    (f : List Listener → List Listener)
    (ht : ∀ em s k, getListeners (t em s) k =
      if k = EventName.sym s then f (getListeners em (EventName.sym s)) else getListeners em k)
    (hf : ∀ x, f (f x) = f x) (sel : PEvent → Bool) :
    ∀ (l : List PEvent) (em : Emitter) (k : EventName),
      getListeners (l.foldl (fun em e => if sel e then t em e.symbol else em) em) k =
        if l.any (fun e => sel e && (EventName.sym e.symbol == k)) then f (getListeners em k)
        else getListeners em k := by
  intro l
  induction l with
  | nil => intro em k; simp
  | cons e l ih =>
    intro em k
    simp only [List.foldl_cons, List.any_cons]
    by_cases hsel : sel e
    · by_cases hk : EventName.sym e.symbol = k
      · subst hk
        rw [ih]
        have hte : getListeners (t em e.symbol) (EventName.sym e.symbol)
            = f (getListeners em (EventName.sym e.symbol)) := by
          rw [ht]
          simp
        by_cases hany : l.any (fun e2 => sel e2 && (EventName.sym e2.symbol
            == EventName.sym e.symbol))
        · simp [hsel, hany, hte, hf]
        · simp [hsel, hany, hte]
      · rw [ih]
        have hte : getListeners (t em e.symbol) k = getListeners em k := by
          rw [ht, if_neg (fun hh => hk hh.symm)]
        have hbeq : (EventName.sym e.symbol == k) = false := by
          simpa using hk
        simp [hsel, hbeq, hte]
    · rw [if_neg (by simpa using hsel), ih]
      simp [hsel]

/-- Per-key action of `emitterRemoveAll`, in the form `foldl_batch_listeners`
expects. -/
theorem removeAll_action (em : Emitter) (s : Nat) (k : EventName) :
    getListeners (emitterRemoveAll em (EventName.sym s)) k =
      if k = EventName.sym s then
        (fun _ => ([] : List Listener)) (getListeners em (EventName.sym s))
      else getListeners em k := rfl

/-- `C6`: `offGroup` removes all listeners on every registered key whose
group matches the pattern — even though every such key is currently
protected, since batch removal bypasses the facade's protection check — and
`offNamespace` does the same over the `namespace` field. -/
theorem offGroup_removes_protected_listeners (reg : Registry) (pattern : String)
    (em : Emitter) :
    (∀ e ∈ reg.events, matchPattern e.meta.group pattern = true →
      isProtectedEvent reg e.symbol = true ∧
      getListeners (offGroup reg pattern em) (EventName.sym e.symbol) = []) ∧
    (∀ e ∈ reg.events, matchPattern e.meta.nspace pattern = true →
      isProtectedEvent reg e.symbol = true ∧
      getListeners (offNamespace reg pattern em) (EventName.sym e.symbol) = []) := by
  have hprot : ∀ e ∈ reg.events, isProtectedEvent reg e.symbol = true := by
    intro e he
    simp only [isProtectedEvent, List.any_eq_true]
    exact ⟨e, he, by simp⟩
  constructor
  · intro e he hm
    refine ⟨hprot e he, ?_⟩
    have := foldl_batch_listeners (fun em s => emitterRemoveAll em (EventName.sym s))
      (fun _ => []) (fun em s k => removeAll_action em s k) (fun x => rfl)
      (fun e => matchPattern e.meta.group pattern) reg.events em (EventName.sym e.symbol)
    rw [offGroup, this, if_pos]
    rw [List.any_eq_true]
    exact ⟨e, he, by simp [hm]⟩
  · intro e he hm
    refine ⟨hprot e he, ?_⟩
    have := foldl_batch_listeners (fun em s => emitterRemoveAll em (EventName.sym s))
      (fun _ => []) (fun em s k => removeAll_action em s k) (fun x => rfl)
      (fun e => matchPattern e.meta.nspace pattern) reg.events em (EventName.sym e.symbol)
    rw [offNamespace, this, if_pos]
    rw [List.any_eq_true]
    exact ⟨e, he, by simp [hm]⟩

/-- Witness for `offGroup_removes_protected_listeners`: key `0` of `regW` is
protected, yet `offGroup` empties its listener list. -/
theorem offGroup_removes_protected_listeners_witness :
    (⟨0, "A", { group := some "g" }⟩ : PEvent) ∈ regW.events ∧
    isProtectedEvent regW 0 = true ∧
    getListeners (offGroup regW "g" emW) (EventName.sym 0) = [] :=
  ⟨by decide,
   ((offGroup_removes_protected_listeners regW "g" emW).1
      ⟨0, "A", { group := some "g" }⟩ (by decide) (by decide) : _ ∧ _).1,
   ((offGroup_removes_protected_listeners regW "g" emW).1
      ⟨0, "A", { group := some "g" }⟩ (by decide) (by decide)).2⟩

/-- Re-attaching a list of listeners with `emitter.on` appends them, in
order, to the key's listener list, leaving other keys alone. -/
theorem foldl_on_listeners (ls : List Listener) :
    ∀ (em : Emitter) (k k2 : EventName),
      getListeners (ls.foldl (fun em l => emitterOn em k l) em) k2 =
        if k2 = k then getListeners em k ++ ls else getListeners em k2 := by
  induction ls with
  | nil =>
    intro em k k2
    by_cases h : k2 = k <;> simp [h, getListeners]
  | cons l ls ih =>
    intro em k k2
    rw [List.foldl_cons, ih]
    by_cases h : k2 = k <;> simp [h, emitterOn, getListeners]

/-- Per-key action of `removeOnceListeners`: the key keeps exactly its
regular (non-once) listeners, in their original order; other keys keep their
listener lists. -/
theorem removeOnce_action (em : Emitter) (s : Nat) (k : EventName) :
    getListeners (removeOnceListeners em s) k =
      if k = EventName.sym s then
        (fun x => x.filter (fun l => !l.once)) (getListeners em (EventName.sym s))
      else getListeners em k := by
  rw [removeOnceListeners]
  rw [foldl_on_listeners]
  by_cases h : k = EventName.sym s <;> simp [h, emitterRemoveAll, getListeners]

/-- `C8`: `offOnceGroup` re-attaches, for every matched key, exactly the
regular listeners in their original order — the once-marked ones are the only
ones detached, so a co-registered regular listener is still attached (and
fires on the next emission); `offOnceNamespace` behaves the same over the
`namespace` field. -/
theorem offOnceGroup_detaches_only_once_listeners (reg : Registry) (pattern : String)
    (em : Emitter) :
    (∀ e ∈ reg.events, matchPattern e.meta.group pattern = true →
      getListeners (offOnceGroup reg pattern em) (EventName.sym e.symbol)
          = (getListeners em (EventName.sym e.symbol)).filter (fun l => !l.once) ∧
      ∀ l ∈ getListeners em (EventName.sym e.symbol), l.once = false →
        l ∈ getListeners (offOnceGroup reg pattern em) (EventName.sym e.symbol)) ∧
    (∀ e ∈ reg.events, matchPattern e.meta.nspace pattern = true →
      getListeners (offOnceNamespace reg pattern em) (EventName.sym e.symbol)
          = (getListeners em (EventName.sym e.symbol)).filter (fun l => !l.once) ∧
      ∀ l ∈ getListeners em (EventName.sym e.symbol), l.once = false →
        l ∈ getListeners (offOnceNamespace reg pattern em) (EventName.sym e.symbol)) := by
  have hidem : ∀ x : List Listener,
      (x.filter (fun l => !l.once)).filter (fun l => !l.once)
        = x.filter (fun l => !l.once) := by
    intro x
    rw [List.filter_filter]
    simp
  constructor
  · intro e he hm
    have hlist := foldl_batch_listeners removeOnceListeners
      (fun x => x.filter (fun l => !l.once)) removeOnce_action hidem
      (fun e => matchPattern e.meta.group pattern) reg.events em (EventName.sym e.symbol)
    rw [offOnceGroup, hlist, if_pos (by rw [List.any_eq_true]; exact ⟨e, he, by simp [hm]⟩)]
    refine ⟨rfl, fun l hl hreg => ?_⟩
    rw [List.mem_filter]
    exact ⟨hl, by simp [hreg]⟩
  · intro e he hm
    have hlist := foldl_batch_listeners removeOnceListeners
      (fun x => x.filter (fun l => !l.once)) removeOnce_action hidem
      (fun e => matchPattern e.meta.nspace pattern) reg.events em (EventName.sym e.symbol)
    rw [offOnceNamespace, hlist, if_pos (by rw [List.any_eq_true]; exact ⟨e, he, by simp [hm]⟩)]
    refine ⟨rfl, fun l hl hreg => ?_⟩
    rw [List.mem_filter]
    exact ⟨hl, by simp [hreg]⟩

/-- Emitter with a once listener and a regular listener co-registered on
key `0`, and a once listener on key `1`. -/
def emOnce : Emitter := fun k =>
  if k = EventName.sym 0 then [⟨20, true⟩, ⟨21, false⟩]
  else if k = EventName.sym 1 then [⟨22, true⟩]
  else []

/-- Witness for `offOnceGroup_detaches_only_once_listeners`: on `regW`'s
key `0`, only the once listener is detached and the co-registered regular
listener stays attached. -/
theorem offOnceGroup_detaches_only_once_listeners_witness :
    getListeners (offOnceGroup regW "g" emOnce) (EventName.sym 0) = [⟨21, false⟩] ∧
    (⟨21, false⟩ : Listener) ∈ getListeners (offOnceGroup regW "g" emOnce) (EventName.sym 0) :=
  ⟨((offOnceGroup_detaches_only_once_listeners regW "g" emOnce).1
      ⟨0, "A", { group := some "g" }⟩ (by decide) (by decide)).1,
   ((offOnceGroup_detaches_only_once_listeners regW "g" emOnce).1
      ⟨0, "A", { group := some "g" }⟩ (by decide) (by decide)).2
      ⟨21, false⟩ (by decide) rfl⟩

/-! ## Waterfall strategy (`C2`) -/

/-- `C2`: the waterfall strategy threads a running result seeded with the
first supplied argument through the matched keys in order: a matched key with
no registered listeners is skipped entirely (same trace, same results, same
threading); a matched key with listeners has only its first listener invoked,
on the argument list whose first position is replaced by the running result,
and the awaited value both becomes the new running result and is appended to
the output; concretely, two matched keys whose single listeners append `s1`
and `s2` produce `[seed ++ s1, seed ++ s1 ++ s2]`. -/
theorem waterfall_first_listener_threading :
    (∀ (em : Emitter) (interp : Nat → List Val → Val) (pre post : List Nat) (k : Nat)
        (result : Val) (args : List Val),
      getListeners em (EventName.sym k) = [] →
      waterfallRun em interp (pre ++ k :: post) result args
        = waterfallRun em interp (pre ++ post) result args) ∧
    (∀ (em : Emitter) (interp : Nat → List Val → Val) (k : Nat) (rest : List Nat)
        (result : Val) (args : List Val) (h : Listener) (t : List Listener),
      getListeners em (EventName.sym k) = h :: t →
      (waterfallRun em interp (k :: rest) result args).2
        = interp h.id (result :: args.tail)
            :: (waterfallRun em interp rest (interp h.id (result :: args.tail)) args).2) ∧
    (∀ (reg : Registry) (p : String) (args : List Val) (em : Emitter)
        (interp : Nat → List Val → Val) (delays : Nat → Nat),
      (emitGroupWithStrategy reg p "waterfall" args em interp delays).results
        = (waterfallRun em interp (matchedEvents reg p) (args.headD Val.undef) args).2) ∧
    (∀ (seed s1 s2 : String) (delays : Nat → Nat),
      (emitGroupWithStrategy regW "g" "waterfall" [Val.str seed] emW (interpW s1 s2)
          delays).results
        = [Val.str (seed ++ s1), Val.str (seed ++ s1 ++ s2)]) := by
  refine ⟨?_, ?_, ?_, ?_⟩
  · intro em interp pre post k result args hk
    induction pre generalizing result with
    | nil =>
      simp only [List.nil_append]
      rw [waterfallRun, hk]
    | cons e pre ih =>
      show waterfallRun em interp (e :: (pre ++ k :: post)) result args
        = waterfallRun em interp (e :: (pre ++ post)) result args
      cases heq : getListeners em (EventName.sym e) with
      | nil =>
        rw [waterfallRun, waterfallRun, heq]
        exact ih result
      | cons hh tt =>
        rw [waterfallRun, waterfallRun, heq]
        simp only []
        rw [ih (interp hh.id (result :: args.tail))]
  · intro em interp k rest result args h t hk
    rw [waterfallRun, hk]
  · intro reg p args em interp delays
    rw [emitGroupWithStrategy, if_neg (by decide), if_pos (by decide)]
  · intro seed s1 s2 delays
    rfl

/-- Witness for `waterfall_first_listener_threading`: a key with an empty
listener list is skipped by the waterfall loop. -/
theorem waterfall_first_listener_threading_witness :
    getListeners emW (EventName.sym 5) = [] ∧
    waterfallRun emW (interpW "x" "y") ([1] ++ 5 :: []) (Val.str "s") [Val.str "s"]
      = waterfallRun emW (interpW "x" "y") ([1] ++ []) (Val.str "s") [Val.str "s"] :=
  ⟨rfl, waterfall_first_listener_threading.1 emW (interpW "x" "y") [1] [] 5
    (Val.str "s") [Val.str "s"] rfl⟩

/-! ## Unknown strategy (`C10`) -/

/-- `C10`: with a strategy value other than `"parallel"`, `"waterfall"` and
`"series"`, `emitGroupWithStrategy` falls through every branch: no emission
is performed on any matched key (empty trace) and it resolves with the empty
result sequence — it is a total function, so no error is raised. -/
theorem unknown_strategy_returns_empty (reg : Registry) (p : String) (args : List Val)
    (em : Emitter) (interp : Nat → List Val → Val) (delays : Nat → Nat)
    (strategy : String) (h1 : strategy ≠ "parallel") (h2 : strategy ≠ "waterfall")
    (h3 : strategy ≠ "series") :
    emitGroupWithStrategy reg p strategy args em interp delays
      = { trace := [], results := [] } := by
  rw [emitGroupWithStrategy,
      if_neg (by simpa using h1), if_neg (by simpa using h2), if_neg (by simpa using h3)]

/-- Witness for `unknown_strategy_returns_empty` at the strategy string
`"sequential"` on a registry with matched keys. -/
theorem unknown_strategy_returns_empty_witness :
    emitGroupWithStrategy regW "g" "sequential" [Val.str "s"] emW (interpW "x" "y")
        (fun _ => 0) = { trace := [], results := [] } :=
  unknown_strategy_returns_empty regW "g" [Val.str "s"] emW (interpW "x" "y") (fun _ => 0)
    "sequential" (by decide) (by decide) (by decide)

/-! ## Parallel strategy (`C7`) -/

/-- Is a trace entry a settle event? -/
def isSettle : TraceEv → Bool
  | TraceEv.settle _ => true
  | TraceEv.initiate _ => false

/-- Inserting into a completion-ordered list is a permutation. -/
theorem insertPending_perm (p : Pending) :
    ∀ ps : List Pending, (insertPending p ps).Perm (p :: ps) := by
  intro ps
  induction ps with
  | nil => exact List.Perm.refl _
  | cons q qs ih =>
    rw [insertPending]
    by_cases h : p.delay < q.delay
    · rw [if_pos h]
    · rw [if_neg h]
      exact (ih.cons q).trans (List.Perm.swap p q qs)

/-- Completion order is a permutation of creation order. -/
theorem sortByDelay_perm : ∀ ps : List Pending, (sortByDelay ps).Perm ps := by
  intro ps
  induction ps with
  | nil => exact List.Perm.refl _
  | cons p ps ih => exact (insertPending_perm p (sortByDelay ps)).trans (ih.cons p)

/-- `withIdx` over a mapped list indexes the originals. -/
theorem withIdx_map {α β : Type} (f : α → β) :
    ∀ (n : Nat) (l : List α),
      withIdx n (l.map f) = (withIdx n l).map (fun q => (q.1, f q.2)) := by
  intro n l
  induction l generalizing n with
  | nil => rfl
  | cons a t ih => simp [withIdx, ih]

/-- Mapping only the values of `withIdx` forgets the indices. -/
theorem withIdx_map_snd {α β : Type} (g : α → β) :
    ∀ (n : Nat) (l : List α), (withIdx n l).map (fun q => g q.2) = l.map g := by
  intro n l
  induction l generalizing n with
  | nil => rfl
  | cons a t ih => simp [withIdx, ih]

/-- Length of `withIdx`. -/
theorem withIdx_length {α : Type} :
    ∀ (n : Nat) (l : List α), (withIdx n l).length = l.length := by
  intro n l
  induction l generalizing n with
  | nil => rfl
  | cons a t ih => simp [withIdx, ih]

/-- Indices below the base never occur in `withIdx`. -/
theorem withIdx_filter_lt {α : Type} (j : Nat) :
    ∀ (l : List α) (n : Nat), j < n →
      (withIdx n l).filter (fun q => q.1 == j) = [] := by
  intro l
  induction l with
  | nil => intro n _; rfl
  | cons a t ih =>
    intro n hn
    rw [withIdx, List.filter_cons, if_neg (by simp; omega)]
    exact ih (n + 1) (by omega)

/-- Indices at or beyond the end never occur in `withIdx`. -/
theorem withIdx_filter_ge {α : Type} (j : Nat) :
    ∀ (l : List α) (n : Nat), n + l.length ≤ j →
      (withIdx n l).filter (fun q => q.1 == j) = [] := by
  intro l
  induction l with
  | nil => intro n _; rfl
  | cons a t ih =>
    intro n hn
    simp only [List.length_cons] at hn
    rw [withIdx, List.filter_cons, if_neg (by simp; omega)]
    exact ih (n + 1) (by omega)

/-- Each in-range index occurs exactly once in `withIdx`, paired with the
element at that position. -/
theorem withIdx_filter_at {α : Type} :
    ∀ (l : List α) (n i : Nat) (h : i < l.length),
      (withIdx n l).filter (fun q => q.1 == n + i) = [(n + i, l[i])] := by
  intro l
  induction l with
  | nil => intro n i h; simp at h
  | cons a t ih =>
    intro n i h
    cases i with
    | zero =>
      rw [withIdx, List.filter_cons, if_pos (by simp)]
      rw [withIdx_filter_lt (n + 0) t (n + 1) (by omega)]
      simp
    | succ i =>
      rw [withIdx, List.filter_cons, if_neg (by simp)]
      have ht : i < t.length := by simpa using Nat.lt_of_succ_lt_succ h
      have := ih (n + 1) i ht
      rw [show n + (i + 1) = n + 1 + i by omega, this]
      simp

/-- Slot-writing a fold of `set`s: position `j` of the result holds the value
of the last write to slot `j`, or the initial content if slot `j` is never
written. -/
theorem foldl_set_get (p : List (Nat × Val)) :
    ∀ (s : List Val) (j : Nat),
      (p.foldl (fun s q => s.set q.1 q.2) s)[j]? =
        match (p.filter (fun q => q.1 == j)).getLast? with
        | some q => if j < s.length then some q.2 else none
        | none => s[j]? := by
  induction p with
  | nil => intro s j; simp
  | cons q p ih =>
    intro s j
    rw [List.foldl_cons, ih (s.set q.1 q.2) j, List.filter_cons]
    by_cases hq : q.1 = j
    · rw [if_pos (by simpa using hq)]
      subst hq
      cases hfil : p.filter (fun r => r.1 == q.1) with
      | nil =>
        by_cases hl : q.1 < s.length
        · simp [List.getElem?_set_self hl, hl]
        · have h1 : (s.set q.1 q.2)[q.1]? = none := by
            rw [List.getElem?_eq_none_iff, List.length_set]
            omega
          simp [h1, hl]
      | cons r t =>
        rw [List.getLast?_cons_cons, List.getLast?_eq_getLast (r :: t) (by simp)]
        simp [List.length_set]
    · rw [if_neg (by simpa using hq)]
      cases hfil : p.filter (fun r => r.1 == j) with
      | nil =>
        have h1 : (s.set q.1 q.2)[j]? = s[j]? := List.getElem?_set_ne hq
        simp [h1]
      | cons r t =>
        rw [List.getLast?_eq_getLast (r :: t) (by simp)]
        simp [List.length_set]

/-- Folding the writes of any permutation of `withIdx 0 l` over an
undefined-initialised slot array of the right length reconstructs `l`
exactly: `Promise.all`'s slot discipline makes the aggregate independent of
completion order. -/
theorem foldl_set_of_perm (l : List Val) (p : List (Nat × Val))
    (hp : p.Perm (withIdx 0 l)) :
    p.foldl (fun s q => s.set q.1 q.2) (List.replicate l.length Val.undef) = l := by
  apply List.ext_getElem?
  intro j
  rw [foldl_set_get]
  by_cases hj : j < l.length
  · have hfil : p.filter (fun q => q.1 == j) = [(j, l[j])] := by
      have h1 := hp.filter (fun q => q.1 == j)
      have h2 := withIdx_filter_at l 0 j hj
      rw [show (0 : Nat) + j = j by omega] at h2
      rw [h2] at h1
      exact List.perm_singleton.mp h1
    rw [hfil]
    simp [hj, List.getElem?_eq_getElem hj]
  · have hfil : p.filter (fun q => q.1 == j) = [] := by
      have h1 := hp.filter (fun q => q.1 == j)
      rw [withIdx_filter_ge j l 0 (by omega)] at h1
      exact h1.eq_nil
    rw [hfil]
    simp only [List.getLast?_nil, List.getElem?_replicate]
    rw [if_neg hj, Eq.comm, List.getElem?_eq_none_iff]
    omega

/-- Writing the pending promises is writing their index/value pairs. -/
theorem foldl_set_pending (ps : List Pending) :
    ∀ init : List Val,
      ps.foldl (fun s p => s.set p.idx (Val.arr p.vals)) init
        = (ps.map (fun p => (p.idx, Val.arr p.vals))).foldl
            (fun s q => s.set q.1 q.2) init := by
  induction ps with
  | nil => intro init; rfl
  | cons p ps ih => intro init; rw [List.foldl_cons, List.map_cons, List.foldl_cons, ih]

/-- `Promise.all` over the parallel batch resolves with the per-event
`emitAsync` arrays in creation (match) order, whatever the completion
schedule. -/
theorem promiseAll_creation_order (em : Emitter) (interp : Nat → List Val → Val)
    (args : List Val) (evs : List Nat) (delays : Nat → Nat) :
    promiseAllSettle ((withIdx 0 evs).map
        (fun q => Pending.mk q.1 q.2 (delays q.2) (emitAsyncVals em interp q.2 args)))
      = evs.map (fun ev => Val.arr (emitAsyncVals em interp ev args)) := by
  rw [promiseAllSettle, foldl_set_pending]
  have hlen : ((withIdx 0 evs).map
      (fun q => Pending.mk q.1 q.2 (delays q.2) (emitAsyncVals em interp q.2 args))).length
      = (evs.map (fun ev => Val.arr (emitAsyncVals em interp ev args))).length := by
    rw [List.length_map, withIdx_length, List.length_map]
  rw [hlen]
  apply foldl_set_of_perm
  have h1 : ((sortByDelay ((withIdx 0 evs).map
      (fun q => Pending.mk q.1 q.2 (delays q.2) (emitAsyncVals em interp q.2 args)))).map
      (fun p => (p.idx, Val.arr p.vals))).Perm
      (((withIdx 0 evs).map
        (fun q => Pending.mk q.1 q.2 (delays q.2) (emitAsyncVals em interp q.2 args))).map
        (fun p => (p.idx, Val.arr p.vals))) :=
    (sortByDelay_perm _).map _
  refine h1.trans (List.Perm.of_eq ?_)
  rw [List.map_map, withIdx_map]
  rfl

/-- Initiation entries are not settles. -/
theorem filter_isSettle_initiate (evs : List Nat) :
    (evs.map TraceEv.initiate).filter isSettle = [] := by
  induction evs with
  | nil => rfl
  | cons e evs ih => simp [isSettle, ih]

/-- Settle entries all pass the settle filter. -/
theorem filter_isSettle_settles (ps : List Pending) :
    (ps.map (fun p => TraceEv.settle p.ev)).filter isSettle
      = ps.map (fun p => TraceEv.settle p.ev) := by
  induction ps with
  | nil => rfl
  | cons p ps ih => simp [isSettle, ih]

/-- `C7`: under the `parallel` strategy the resolved result sequence lists,
for every completion schedule, the per-key `emitAsync` result arrays in
match-iteration order — the registry listing order of the matched keys — so
two schedules that complete in different orders resolve identically; and the
emission trace consists of the initiation of every matched key, in match
order, strictly before all of the awaited settlements, which are exactly the
matched keys in some completion order. -/
theorem parallel_results_in_match_order (reg : Registry) (p : String) (args : List Val)
    (em : Emitter) (interp : Nat → List Val → Val) (delays delays' : Nat → Nat) :
    (emitGroupWithStrategy reg p "parallel" args em interp delays).results
        = (matchedEvents reg p).map (fun ev => Val.arr (emitAsyncVals em interp ev args)) ∧
    (emitGroupWithStrategy reg p "parallel" args em interp delays).results
        = (emitGroupWithStrategy reg p "parallel" args em interp delays').results ∧
    (emitGroupWithStrategy reg p "parallel" args em interp delays).trace
        = (matchedEvents reg p).map TraceEv.initiate ++
            (emitGroupWithStrategy reg p "parallel" args em interp delays).trace.filter
              isSettle ∧
    ((emitGroupWithStrategy reg p "parallel" args em interp delays).trace.filter
        isSettle).Perm ((matchedEvents reg p).map TraceEv.settle) := by
  have hsettles : ∀ d : Nat → Nat,
      (((withIdx 0 (matchedEvents reg p)).map
        (fun q => Pending.mk q.1 q.2 (d q.2) (emitAsyncVals em interp q.2 args))).map
        (fun pd => TraceEv.settle pd.ev)) = (matchedEvents reg p).map TraceEv.settle := by
    intro d
    rw [List.map_map]
    exact withIdx_map_snd TraceEv.settle 0 (matchedEvents reg p)
  refine ⟨?_, ?_, ?_, ?_⟩
  · rw [emitGroupWithStrategy, if_pos (by decide)]
    exact promiseAll_creation_order em interp args (matchedEvents reg p) delays
  · rw [emitGroupWithStrategy, if_pos (by decide),
        emitGroupWithStrategy, if_pos (by decide)]
    exact (promiseAll_creation_order em interp args (matchedEvents reg p) delays).trans
      (promiseAll_creation_order em interp args (matchedEvents reg p) delays').symm
  · rw [emitGroupWithStrategy, if_pos (by decide)]
    show _ = (matchedEvents reg p).map TraceEv.initiate ++ List.filter isSettle _
    rw [List.filter_append, filter_isSettle_initiate, filter_isSettle_settles,
        List.nil_append]
  · rw [emitGroupWithStrategy, if_pos (by decide)]
    show (List.filter isSettle _).Perm _
    rw [List.filter_append, filter_isSettle_initiate, filter_isSettle_settles,
        List.nil_append]
    exact ((sortByDelay_perm _).map _).trans (List.Perm.of_eq (hsettles delays))
